import Mathlib

/-!
Verification of the segmented message broker (`messaging/broker.go`).

The Go source is shallowly embedded: machine integers are `Nat` (with
explicit `% 2^w` where Go conversions truncate), byte slices are
`List Nat`, Go maps keyed by `uint64` are association lists, and the
filesystem visible to the broker (one file per topic segment) is an
association list keyed by `(topicID, segmentStartIndex)`.  Fallible Go
code returns `Option`/`Except`; a Go `panic` is a distinguished failure
value.
-/

namespace Messaging

/-! ## Constants (broker.go lines 20-27, 1321-1336) -/

/-- `BroadcastTopicID`: the topic used to communicate with all replicas. -/
def BroadcastTopicID : Nat := 0

/-- `MaxSegmentSize`: the largest size a segment can be before a new segment
is started (10 MB). -/
def MaxSegmentSize : Nat := 10 * 1024 * 1024

/-- `BrokerMessageType = 0x8000`: high bit marking broker-internal commands. -/
def BrokerMessageType : Nat := 0x8000

/-- `InternalMessageType = BrokerMessageType | 0x00`. -/
def InternalMessageType : Nat := 0x8000

/-- `CreateReplicaMessageType = BrokerMessageType | 0x10`. -/
def CreateReplicaMessageType : Nat := 0x8010

/-- `DeleteReplicaMessageType = BrokerMessageType | 0x11`. -/
def DeleteReplicaMessageType : Nat := 0x8011

/-- `SubscribeMessageType = BrokerMessageType | 0x20`. -/
def SubscribeMessageType : Nat := 0x8020

/-- `UnsubscribeMessageType = BrokerMessageType | 0x21`. -/
def UnsubscribeMessageType : Nat := 0x8021

/-- `messageHeaderSize = 2 + 8 + 8 + 4` bytes. -/
def messageHeaderSize : Nat := 22

/-! ## Message codec (broker.go lines 1338-1421) -/

/-- `Message`: a single item in a topic.  Fields model Go types
`uint16 / uint64 / uint64 / []byte`; the numeric fields are `Nat` with the
representation bounds carried as hypotheses where they matter. -/
structure Message where
  type : Nat
  topicID : Nat
  index : Nat
  data : List Nat
deriving DecidableEq

/-- Big-endian byte encoding of `n % 256^k` on exactly `k` bytes, as done by
`binary.BigEndian.PutUint16/32/64`. -/
def beBytes : Nat → Nat → List Nat
  | 0, _ => []
  | k + 1, n => beBytes k (n / 256) ++ [n % 256]

/-- Big-endian read of a byte list, as done by `binary.BigEndian.Uint16/32/64`. -/
def readBE (bs : List Nat) : Nat := bs.foldl (fun acc b => acc * 256 + b) 0

/-- `Message.marshalHeader` (lines 1377-1385): 22-byte big-endian header
`type:u16 | topicID:u64 | index:u64 | dataLen:u32`.  The `uint32(len(m.Data))`
conversion truncates, which `beBytes 4` performs implicitly. -/
def marshalHeader (m : Message) : List Nat :=
  beBytes 2 m.type ++ beBytes 8 m.topicID ++ beBytes 8 m.index ++
    beBytes 4 m.data.length

/-- `Message.MarshalBinary` (lines 1357-1364): header followed by the data. -/
def encodeMessage (m : Message) : List Nat :=
  marshalHeader m ++ m.data

/-- `MessageDecoder.Decode` (lines 1406-1421): read exactly 22 header bytes,
then exactly `dataLen` payload bytes; short reads fail.  Returns the decoded
message together with the unconsumed remainder of the stream. -/
def decodeMessage (bs : List Nat) : Option (Message × List Nat) :=
  if messageHeaderSize ≤ bs.length then
    let ty := readBE (bs.take 2)
    let tid := readBE ((bs.drop 2).take 8)
    let idx := readBE ((bs.drop 10).take 8)
    let len := readBE ((bs.drop 18).take 4)
    let rest := bs.drop messageHeaderSize
    if len ≤ rest.length then
      some (⟨ty, tid, idx, rest.take len⟩, rest.drop len)
    else none
  else none

/-- `Message.UnmarshalBinary` (lines 1366-1375): same header/data layout; any
trailing bytes are ignored.  A slice shorter than the header or the declared
data length fails (panic or error, both fatal at the call sites). -/
def unmarshalBinary (bs : List Nat) : Option Message :=
  (decodeMessage bs).map (fun p => p.1)

/-- Representation invariant of a Go `Message` value: the numeric fields fit
their machine types (`uint16`, `uint64`, `uint64`). -/
def msgWF (m : Message) : Bool :=
  decide (m.type < 2 ^ 16) && decide (m.topicID < 2 ^ 64) &&
    decide (m.index < 2 ^ 64)

theorem beBytes_length (k n : Nat) : (beBytes k n).length = k := by
  induction k generalizing n with
  | zero => rfl
  | succ k ih => simp [beBytes, ih]

theorem readBE_beBytes (k n : Nat) : readBE (beBytes k n) = n % 256 ^ k := by
  induction k generalizing n with
  | zero => simp [beBytes, readBE, Nat.mod_one]
  | succ k ih =>
    have h1 : readBE (beBytes k (n / 256) ++ [n % 256]) =
        readBE (beBytes k (n / 256)) * 256 + n % 256 := by
      simp [readBE, List.foldl_append]
    have h2 : n % 256 ^ (k + 1) = n % 256 + 256 * (n / 256 % 256 ^ k) := by
      rw [pow_succ, mul_comm (256 ^ k) 256, Nat.mod_mul]
    rw [beBytes, h1, ih, h2]
    ring

theorem take_append_left {xs ys : List Nat} (n : Nat) (h : xs.length = n) :
    (xs ++ ys).take n = xs := by
  subst h; exact List.take_left xs ys

theorem drop_append_left {xs ys : List Nat} (n : Nat) (h : xs.length = n) :
    (xs ++ ys).drop n = ys := by
  subst h; exact List.drop_left xs ys

theorem drop_append_plus (xs ys : List Nat) (k : Nat) :
    (xs ++ ys).drop (xs.length + k) = ys.drop k := by
  induction xs with
  | nil => simp
  | cons a xs ih => simp [Nat.succ_add, ih]

/-- Round-trip of a single message at the head of a byte stream. -/
theorem decodeMessage_encodeMessage (m : Message) (rest : List Nat)
    (hwf : msgWF m = true) (hlen : m.data.length ≤ 2 ^ 32 - 1) :
    decodeMessage (encodeMessage m ++ rest) = some (m, rest) := by
  obtain ⟨ty, tid, idx, d⟩ := m
  simp only [msgWF, Bool.and_eq_true, decide_eq_true_eq] at hwf
  obtain ⟨⟨h1, h2⟩, h3⟩ := hwf
  have h4 : d.length < 2 ^ 32 := by
    have h5 : d.length ≤ 2 ^ 32 - 1 := hlen
    omega
  have bs_eq : encodeMessage ⟨ty, tid, idx, d⟩ ++ rest =
      beBytes 2 ty ++ (beBytes 8 tid ++ (beBytes 8 idx ++
        (beBytes 4 d.length ++ (d ++ rest)))) := by
    simp [encodeMessage, marshalHeader]
  set A := beBytes 2 ty with hA
  set B := beBytes 8 tid with hB
  set C := beBytes 8 idx with hC
  set D := beBytes 4 d.length with hD
  have lA : A.length = 2 := beBytes_length 2 ty
  have lB : B.length = 8 := beBytes_length 8 tid
  have lC : C.length = 8 := beBytes_length 8 idx
  have lD : D.length = 4 := beBytes_length 4 d.length
  set bs := A ++ (B ++ (C ++ (D ++ (d ++ rest)))) with hbs
  have hlenbs : bs.length = 22 + (d.length + rest.length) := by
    simp [hbs, lA, lB, lC, lD]; omega
  have e0 : bs.take 2 = A := by
    rw [hbs]; exact take_append_left 2 lA
  have e2 : bs.drop 2 = B ++ (C ++ (D ++ (d ++ rest))) := by
    rw [hbs]; exact drop_append_left 2 lA
  have e2t : (bs.drop 2).take 8 = B := by
    rw [e2]; exact take_append_left 8 lB
  have e10 : bs.drop 10 = C ++ (D ++ (d ++ rest)) := by
    rw [hbs, show (10 : Nat) = A.length + 8 by rw [lA],
      drop_append_plus, show (8 : Nat) = B.length + 0 by rw [lB],
      drop_append_plus]
    simp
  have e10t : (bs.drop 10).take 8 = C := by
    rw [e10]; exact take_append_left 8 lC
  have e18 : bs.drop 18 = D ++ (d ++ rest) := by
    rw [hbs, show (18 : Nat) = A.length + 16 by rw [lA],
      drop_append_plus, show (16 : Nat) = B.length + 8 by rw [lB],
      drop_append_plus, show (8 : Nat) = C.length + 0 by rw [lC],
      drop_append_plus]
    simp
  have e18t : (bs.drop 18).take 4 = D := by
    rw [e18]; exact take_append_left 4 lD
  have e22 : bs.drop 22 = d ++ rest := by
    rw [hbs, show (22 : Nat) = A.length + 20 by rw [lA],
      drop_append_plus, show (20 : Nat) = B.length + 12 by rw [lB],
      drop_append_plus, show (12 : Nat) = C.length + 4 by rw [lC],
      drop_append_plus, show (4 : Nat) = D.length + 0 by rw [lD],
      drop_append_plus]
    simp
  have rty : readBE A = ty := by
    rw [hA, readBE_beBytes]
    exact Nat.mod_eq_of_lt (by norm_num at h1 ⊢; omega)
  have rtid : readBE B = tid := by
    rw [hB, readBE_beBytes]
    exact Nat.mod_eq_of_lt (by norm_num at h2 ⊢; omega)
  have ridx : readBE C = idx := by
    rw [hC, readBE_beBytes]
    exact Nat.mod_eq_of_lt (by norm_num at h3 ⊢; omega)
  have rlen : readBE D = d.length := by
    rw [hD, readBE_beBytes]
    exact Nat.mod_eq_of_lt (by norm_num at h4 ⊢; omega)
  rw [bs_eq]
  show decodeMessage bs = _
  unfold decodeMessage
  rw [if_pos (by rw [hlenbs, messageHeaderSize]; omega)]
  simp only [messageHeaderSize, e0, e2t, e10t, e18t, e22, rty, rtid, ridx, rlen]
  rw [if_pos (by simp)]
  simp [take_append_left d.length rfl, drop_append_left d.length rfl]

/-- If a message decodes off a stream, the remainder is strictly shorter. -/
theorem decodeMessage_shrinks (bs : List Nat) (m : Message) (rest : List Nat)
    (h : decodeMessage bs = some (m, rest)) : rest.length < bs.length := by
  unfold decodeMessage at h
  by_cases h22 : messageHeaderSize ≤ bs.length
  · rw [if_pos h22] at h
    by_cases hl : readBE ((bs.drop 18).take 4) ≤ (bs.drop messageHeaderSize).length
    · rw [if_pos hl] at h
      simp at h
      have hr : rest = bs.drop (messageHeaderSize + readBE ((bs.drop 18).take 4)) :=
        h.2.symm
      have h6 : rest.length =
          bs.length - (messageHeaderSize + readBE ((bs.drop 18).take 4)) := by
        rw [hr]; simp
      simp [messageHeaderSize] at h22 h6
      omega
    · rw [if_neg hl] at h; exact absurd h (by simp)
  · rw [if_neg h22] at h; exact absurd h (by simp)

/-! ## Association-list maps and the filesystem model

Go `map[uint64]T` values are modelled as association lists; insertion
replaces an existing binding.  The on-disk segment files are modelled as an
association list from `(topicID, segmentStartIndex)` to the file's bytes. -/

def lookupA {α : Type} : List (Nat × α) → Nat → Option α
  | [], _ => none
  | e :: rest, k => if e.1 = k then some e.2 else lookupA rest k

def insertA {α : Type} : List (Nat × α) → Nat → α → List (Nat × α)
  | [], k, v => [(k, v)]
  | e :: rest, k, v => if e.1 = k then (k, v) :: rest else e :: insertA rest k v

def eraseA {α : Type} (l : List (Nat × α)) (k : Nat) : List (Nat × α) :=
  l.filter (fun e => decide (e.1 ≠ k))

/-- Insertion into a Go map-used-as-a-set. -/
def insertNat (l : List Nat) (x : Nat) : List Nat :=
  if x ∈ l then l else l ++ [x]

/-- The broker-visible filesystem: one entry per segment file, keyed by
`(topicID, segmentStartIndex)` (the Go path `<topicID>/<startIndex>`). -/
abbrev FS := List ((Nat × Nat) × List Nat)

def fsLookup : FS → Nat × Nat → Option (List Nat)
  | [], _ => none
  | e :: rest, k => if e.1 = k then some e.2 else fsLookup rest k

/-- Appending bytes to a segment file opened with
`O_RDWR|O_CREATE|O_APPEND`: create-if-absent, then append. -/
def fsAppend : FS → Nat × Nat → List Nat → FS
  | [], k, bytes => [(k, bytes)]
  | e :: rest, k, bytes =>
    if e.1 = k then (k, e.2 ++ bytes) :: rest else e :: fsAppend rest k bytes

/-- `os.Remove` of one segment file (a missing file is ignored). -/
def fsRemove (fs : FS) (k : Nat × Nat) : FS :=
  fs.filter (fun e => decide (e.1 ≠ k))

/-- `os.RemoveAll` of a topic directory. -/
def fsRemoveTopic (fs : FS) (tid : Nat) : FS :=
  fs.filter (fun e => decide (e.1.1 ≠ tid))

/-! ## Data model (broker.go lines 29-41, 898-912, 1129-1136, 1181-1195) -/

/-- `segment`: starting index, tracked size, and whether the write handle is
open (`file != nil`).  The on-disk path is derivable as
`(topicID, index)`. -/
structure Segment where
  index : Nat
  size : Nat
  hasFile : Bool
deriving DecidableEq

/-- `topic`: id, highest index written, segment list, and ids of replicas
subscribed for live tail. -/
structure Topic where
  id : Nat
  index : Nat
  segments : List Segment
  replicas : List Nat
deriving DecidableEq

/-- `Replica`: connect URL (modelled as raw bytes), highest received index,
and the subscribed topic-id set. -/
structure Replica where
  id : Nat
  url : List Nat
  index : Nat
  topics : List Nat
deriving DecidableEq

/-- `Broker`: highest applied index, raft leadership state (external
consensus layer, exposed through `IsLeader`), topics and replicas. -/
structure Broker where
  index : Nat
  isLeader : Bool
  topics : List (Nat × Topic)
  replicas : List (Nat × Replica)
deriving DecidableEq

/-! ## Topic open and append (broker.go lines 914-979, 1084-1127) -/

/-- Insertion sort on segments by starting index (`sort.Sort(a)` in
`loadSegments`). -/
def insertSeg (s : Segment) : List Segment → List Segment
  | [] => [s]
  | x :: xs => if s.index ≤ x.index then s :: x :: xs else x :: insertSeg s xs

def sortSegs (l : List Segment) : List Segment := l.foldr insertSeg []

/-- `topic.loadSegments` (lines 940-979): one segment per numeric file in
the topic directory, sorted ascending; a placeholder segment with
`startIndex = 0` if none exist. -/
def loadSegments (fs : FS) (tid : Nat) : List Segment :=
  let a := (fs.filter (fun e => decide (e.1.1 = tid))).map
    (fun e => Segment.mk e.1.2 e.2.length false)
  let a := sortSegs a
  if a.isEmpty then [Segment.mk 0 0 false] else a

/-- `Broker.mustCreateTopicIfNotExists` (lines 420-446): return the existing
topic, or create and open a fresh one (metadata save and `MkdirAll` are
modelled as always succeeding).  Opening does not read the topic's high
index (`loadIndex` is not called), so a created topic has `index = 0`. -/
def mustCreateTopicIfNotExists (b : Broker) (fs : FS) (tid : Nat) :
    Broker × Topic :=
  match lookupA b.topics tid with
  | some t => (b, t)
  | none =>
    let t : Topic := { id := tid, index := 0, segments := loadSegments fs tid,
                       replicas := [] }
    ({ b with topics := insertA b.topics tid t }, t)

/-- Outcome of `topic.encode`.  `assertFail` is the
`assert(m.Index > t.index)` panic; `nilDeref` is the nil-pointer panic
reached when the rollover branch sets `s = nil` (or `segments.last()` was
already nil) and the code then reads `s.file`. -/
inductive EncodeResult where
  | assertFail
  | nilDeref
  | ok (t : Topic) (fs : FS)
deriving DecidableEq

/-- `topic.encode` (lines 1084-1127), traced faithfully:

1. `assert(m.Index > t.index)`;
2. `s := t.segments.last()`;
3. if `s.size > MaxSegmentSize`: `s.close(); s = nil`, append a fresh
   segment `{index: m.Index}` — and then the very next statement reads
   `s.file` on the nil `s`, a panic;
4. otherwise open the write handle if needed, write header+data in one
   chunk, and move the topic's high-water mark (note: `s.size` is *not*
   updated).  Sink writes to attached replicas have no modelled effect. -/
def topicEncode (t : Topic) (fs : FS) (m : Message) : EncodeResult :=
  if ¬ t.index < m.index then .assertFail
  else
    match t.segments.getLast? with
    | none => .nilDeref
    | some s =>
      if MaxSegmentSize < s.size then .nilDeref
      else
        let s2 : Segment := { s with hasFile := true }
        let bytes := encodeMessage m
        .ok { t with index := m.index,
                     segments := t.segments.dropLast ++ [s2] }
            (fsAppend fs (t.id, s.index) bytes)

theorem topicEncode_ok_index (t : Topic) (fs : FS) (m : Message)
    (t2 : Topic) (fs2 : FS) (h : topicEncode t fs m = .ok t2 fs2) :
    t.index < m.index ∧ t2.index = m.index ∧ t2.id = t.id := by
  unfold topicEncode at h
  split at h
  · exact absurd h (by simp)
  next hlt =>
    have hlt2 : t.index < m.index := not_not.mp hlt
    split at h
    · exact absurd h (by simp)
    next s hl =>
      split at h
      · exact absurd h (by simp)
      next hsz =>
        rw [EncodeResult.ok.injEq] at h
        obtain ⟨h1, h2⟩ := h
        subst h1
        exact ⟨hlt2, by simp, by simp⟩

/-! ## Catch-up replay (broker.go lines 1016-1082) -/

/-- The decode-and-forward loop of `topic.writeSegmentTo` (lines 1058-1079):
decode messages until clean EOF, skipping any message with
`m.Index ≤ index`, forwarding the rest to the replica sink in order.  A
short read mid-message is a decode error.  Sink writes are modelled as
succeeding; the returned list is what was written to the sink. -/
def writeSegmentLoop (index : Nat) (bs : List Nat) : Except String (List Message) :=
  if hbs : bs.isEmpty then .ok []
  else
    match hdec : decodeMessage bs with
    | none => .error "decode"
    | some (m, rest) =>
      match writeSegmentLoop index rest with
      | .error e => .error e
      | .ok ms => .ok (if m.index ≤ index then ms else m :: ms)
termination_by bs.length
decreasing_by exact decodeMessage_shrinks bs m rest hdec

/-- `topic.writeSegmentTo` (lines 1047-1082): a missing segment file is
treated as empty. -/
def writeSegmentTo (index : Nat) (tid : Nat) (s : Segment) (fs : FS) :
    Except String (List Message) :=
  match fsLookup fs (tid, s.index) with
  | none => .ok []
  | some bs => writeSegmentLoop index bs

/-- The segment loop of `topic.writeTo` (lines 1016-1045): a segment is
skipped when a next segment exists and the replica's high received index is
at or past the next segment's start. -/
def writeToLoop (index : Nat) (tid : Nat) (fs : FS) :
    List Segment → Except String (List Message)
  | [] => .ok []
  | [s] => writeSegmentTo index tid s fs
  | s :: s2 :: rest =>
    if s2.index ≤ index then writeToLoop index tid fs (s2 :: rest)
    else
      match writeSegmentTo index tid s fs with
      | .error e => .error e
      | .ok ms =>
        match writeToLoop index tid fs (s2 :: rest) with
        | .error e => .error e
        | .ok ms2 => .ok (ms ++ ms2)

/-- `topic.writeTo` (lines 1016-1045). -/
def topicWriteTo (t : Topic) (fs : FS) (r : Replica) :
    Except String (List Message) :=
  writeToLoop r.index t.id fs t.segments

/-! ## Commands (broker.go lines 448-607, 1295-1316)

The Go command payloads are JSON (`encoding/json`, external to this
repository); they are modelled as injective fixed-width byte encodings with
matching decoders, which is all the broker relies on. -/

/-- Modelled from the spec: JSON encoding of `CreateReplicaCommand{id,url}`
(external `encoding/json`), as an injective byte encoding. -/
def encodeCreateReplicaCommand (id : Nat) (url : List Nat) : List Nat :=
  beBytes 8 id ++ beBytes 8 url.length ++ url

/-- Modelled from the spec: JSON decoding of `CreateReplicaCommand`. -/
def decodeCreateReplicaCommand (bs : List Nat) : Option (Nat × List Nat) :=
  if 16 ≤ bs.length then
    let id := readBE (bs.take 8)
    let len := readBE ((bs.drop 8).take 8)
    if (bs.drop 16).length = len then some (id, bs.drop 16) else none
  else none

/-- Modelled from the spec: JSON encoding of `DeleteReplicaCommand{id}`. -/
def encodeDeleteReplicaCommand (id : Nat) : List Nat := beBytes 8 id

/-- Modelled from the spec: JSON decoding of `DeleteReplicaCommand`. -/
def decodeDeleteReplicaCommand (bs : List Nat) : Option Nat :=
  if bs.length = 8 then some (readBE bs) else none

/-- Modelled from the spec: JSON encoding of
`SubscribeCommand{replicaID,topicID}` (and `UnsubscribeCommand`). -/
def encodeSubscribeCommand (rid tid : Nat) : List Nat :=
  beBytes 8 rid ++ beBytes 8 tid

/-- Modelled from the spec: JSON decoding of `SubscribeCommand` /
`UnsubscribeCommand`. -/
def decodeSubscribeCommand (bs : List Nat) : Option (Nat × Nat) :=
  if bs.length = 16 then some (readBE (bs.take 8), readBE (bs.drop 8))
  else none

/-- `Broker.mustApplyCreateReplica` (lines 466-481): create a fresh replica,
auto-subscribe it to the broadcast topic (creating that topic if needed),
and store it under its id — unconditionally, replacing any existing replica
with that id. -/
def mustApplyCreateReplica (b : Broker) (fs : FS) (id : Nat) (url : List Nat) :
    Broker × FS :=
  let b1 := (mustCreateTopicIfNotExists b fs BroadcastTopicID).1
  let r : Replica := { id := id, url := url, index := 0,
                       topics := insertNat [] BroadcastTopicID }
  ({ b1 with replicas := insertA b1.replicas id r }, fs)

/-- `Broker.mustApplyDeleteReplica` (lines 500-525): no-op if absent;
otherwise detach the replica from every subscribed topic and drop it. -/
def mustApplyDeleteReplica (b : Broker) (fs : FS) (id : Nat) : Broker × FS :=
  match lookupA b.replicas id with
  | none => (b, fs)
  | some r =>
    let topics2 := b.topics.map (fun p =>
      if p.1 ∈ r.topics then
        (p.1, { p.2 with replicas := p.2.replicas.filter (fun x => decide (x ≠ id)) })
      else p)
    ({ b with topics := topics2, replicas := eraseA b.replicas id }, fs)

/-- `Broker.mustApplySubscribe` (lines 546-573): no-op if the replica is
absent; ensure the topic exists; if already subscribed only the topic
creation persists; otherwise record the subscription on both sides and run
catch-up (whose sink writes have no modelled effect and whose error is
discarded). -/
def mustApplySubscribe (b : Broker) (fs : FS) (rid tid : Nat) : Broker × FS :=
  match lookupA b.replicas rid with
  | none => (b, fs)
  | some r =>
    if tid ∈ r.topics then ((mustCreateTopicIfNotExists b fs tid).1, fs)
    else
      ({ (mustCreateTopicIfNotExists b fs tid).1 with
         replicas := insertA (mustCreateTopicIfNotExists b fs tid).1.replicas rid
           { r with topics := insertNat r.topics tid },
         topics := insertA (mustCreateTopicIfNotExists b fs tid).1.topics tid
           { (mustCreateTopicIfNotExists b fs tid).2 with
             replicas := insertNat (mustCreateTopicIfNotExists b fs tid).2.replicas
               rid } }, fs)

/-- `Broker.mustApplyUnsubscribe` (lines 592-607): remove the relation on
both sides; no-op on absence. -/
def mustApplyUnsubscribe (b : Broker) (fs : FS) (rid tid : Nat) : Broker × FS :=
  let replicas2 :=
    match lookupA b.replicas rid with
    | none => b.replicas
    | some r =>
      insertA b.replicas rid { r with topics := r.topics.filter (fun x => decide (x ≠ tid)) }
  let topics2 :=
    match lookupA b.topics tid with
    | none => b.topics
    | some t =>
      insertA b.topics tid { t with replicas := t.replicas.filter (fun x => decide (x ≠ rid)) }
  ({ b with replicas := replicas2, topics := topics2 }, fs)

/-- `Broker.CreateReplica` (lines 449-464): the leader-side pre-publish
check.  On success the command message handed to `PublishSync` is
returned. -/
def brokerCreateReplica (b : Broker) (id : Nat) (url : List Nat) :
    Except String Message :=
  match lookupA b.replicas id with
  | some _ => .error "replica already exists"
  | none => .ok { type := CreateReplicaMessageType, topicID := 0, index := 0,
                  data := encodeCreateReplicaCommand id url }

/-- `Broker.Heartbeat` (lines 626-644): leader-only; sets the replica's
highest received index to exactly the given value (no monotonicity
check). -/
def brokerHeartbeat (b : Broker) (id idx : Nat) : Except String Broker :=
  if !b.isLeader then .error "not leader"
  else
    match lookupA b.replicas id with
    | none => .error "replica not found"
    | some r =>
      .ok { b with replicas := insertA b.replicas id { r with index := idx } }

/-! ## Truncation (broker.go lines 387-407, 646-682) -/

/-- One step of the `Broker.minReplicaTopicIndex` fold (lines 389-407): the
accumulator is `(index, updated)`. -/
def minIdxStep (topicID : Nat) (acc : Nat × Bool) (p : Nat × Replica) :
    Nat × Bool :=
  if topicID ∈ p.2.topics then
    if !acc.2 || p.2.index < acc.1 then (p.2.index, true) else acc
  else acc

/-- `Broker.minReplicaTopicIndex`: lowest `highReceivedIndex` over the
replicas subscribed to the topic; `0` when none is subscribed. -/
def minReplicaTopicIndex (b : Broker) (topicID : Nat) : Nat :=
  (b.replicas.foldl (minIdxStep topicID) (0, false)).1

/-- The per-topic segment loop of `Broker.Truncate` (lines 657-678),
faithfully including the bug that the retained-segment list (`newSegments`)
is never written back: the returned segment list differs from the input only
in that removed segments have their write handle closed.  The second
component lists the start indexes of the segments whose files were
removed. -/
def truncateSegs (minIdx : Nat) : List Segment → List Segment × List Nat
  | [] => ([], [])
  | [s] => ([s], [])
  | s :: s2 :: rest =>
    let pr := truncateSegs minIdx (s2 :: rest)
    if minIdx < s2.index then (s :: pr.1, pr.2)
    else ({ s with hasFile := false } :: pr.1, s.index :: pr.2)

/-- `Broker.Truncate` (lines 647-682).  `os.Remove` failures other than
"not exist" are real filesystem faults and are modelled as not occurring,
so the result is total. -/
def brokerTruncate (b : Broker) (fs : FS) : Broker × FS :=
  let step := b.topics.map (fun p =>
    let pr := truncateSegs (minReplicaTopicIndex b p.1) p.2.segments
    ((p.1, { p.2 with segments := pr.1 }), pr.2.map (fun i => (p.1, i))))
  let removed := (step.map (fun q => q.2)).flatten
  ({ b with topics := step.map (fun q => q.1) },
   fs.filter (fun e => decide (e.1 ∉ removed)))

/-! ## FSM apply (broker.go lines 684-737) -/

/-- A raft log entry: `Type` (`command` or `internal`), `Index`, and the
payload bytes. -/
structure LogEntry where
  isCommand : Bool
  index : Nat
  data : List Nat
deriving DecidableEq

/-- The message a log entry is materialized into (lines 693-721): command
entries decode their payload (decode failure is a fatal assert); internal
entries become broadcast no-ops; either way the message takes the raft
index. -/
def appliedMessage (e : LogEntry) : Option Message :=
  if e.isCommand then
    (unmarshalBinary e.data).map (fun m => { m with index := e.index })
  else
    some { type := InternalMessageType, topicID := BroadcastTopicID,
           index := e.index, data := [] }

/-- The command dispatch of `brokerFSM.MustApply` (lines 704-713): the four
broker command types mutate the configuration; all other types fall
through.  A JSON decode failure in `mustUnmarshalJSON` is a panic
(`none`).  Command handlers ignore `m.index`, so dispatching the
index-updated message is equivalent to the Go order of operations. -/
def applyCommand (b : Broker) (fs : FS) (m : Message) : Option (Broker × FS) :=
  if m.type = CreateReplicaMessageType then
    (decodeCreateReplicaCommand m.data).map
      (fun c => mustApplyCreateReplica b fs c.1 c.2)
  else if m.type = DeleteReplicaMessageType then
    (decodeDeleteReplicaCommand m.data).map (fun id => mustApplyDeleteReplica b fs id)
  else if m.type = SubscribeMessageType then
    (decodeSubscribeCommand m.data).map (fun c => mustApplySubscribe b fs c.1 c.2)
  else if m.type = UnsubscribeMessageType then
    (decodeSubscribeCommand m.data).map (fun c => mustApplyUnsubscribe b fs c.1 c.2)
  else some (b, fs)

/-- Appending the materialized message to its addressed topic
(lines 723-727): create the topic if needed, then `topic.encode`; an encode
error or panic aborts the process (`none`). -/
def appendEntryMessage (b : Broker) (fs : FS) (m : Message) :
    Option (Broker × FS) :=
  match topicEncode (mustCreateTopicIfNotExists b fs m.topicID).2 fs m with
  | .ok t2 fs2 => some
      ({ (mustCreateTopicIfNotExists b fs m.topicID).1 with
         topics := insertA (mustCreateTopicIfNotExists b fs m.topicID).1.topics
           m.topicID t2 }, fs2)
  | _ => none

/-- `brokerFSM.MustApply` (lines 690-731). -/
def mustApply (b : Broker) (fs : FS) (e : LogEntry) : Option (Broker × FS) :=
  match appliedMessage e with
  | none => none
  | some m =>
    match (if e.isCommand then applyCommand b fs m else some (b, fs)) with
    | none => none
    | some bfs =>
      match appendEntryMessage bfs.1 bfs.2 m with
      | none => none
      | some bfs2 => some ({ bfs2.1 with index := e.index }, bfs2.2)

/-! ## Snapshot and restore (broker.go lines 258-310, 739-871) -/

structure SnapSegment where
  index : Nat
  size : Nat
deriving DecidableEq

structure SnapTopic where
  id : Nat
  segments : List SnapSegment
deriving DecidableEq

structure SnapReplica where
  id : Nat
  url : List Nat
  topicIDs : List Nat
deriving DecidableEq

structure SnapshotHeader where
  replicas : List SnapReplica
  topics : List SnapTopic
  index : Nat
deriving DecidableEq

/-- `os.Stat` of a segment file: a missing file counts as size 0
(lines 270-279). -/
def statSize (fs : FS) (tid idx : Nat) : Nat :=
  match fsLookup fs (tid, idx) with
  | none => 0
  | some c => c.length

/-- The per-topic step of `createSnapshotHeader`'s loop (lines 264-296). -/
def cshStep (fs : FS) (sh : SnapshotHeader) (p : Nat × Topic) : SnapshotHeader :=
  let segs := p.2.segments.map
    (fun s => SnapSegment.mk s.index (statSize fs p.1 s.index))
  let st : SnapTopic := { id := p.1, segments := segs }
  let idx := p.2.segments.foldl
    (fun acc s => if acc < s.index then s.index else acc) sh.index
  { sh with topics := sh.topics ++ [st], index := idx }

/-- `Broker.createSnapshotHeader` (lines 259-310): per-topic segment lists
with on-disk sizes, the running maximum of segment start indexes, and the
replica configurations. -/
def createSnapshotHeader (b : Broker) (fs : FS) : SnapshotHeader :=
  let sh := b.topics.foldl (cshStep fs) { replicas := [], topics := [], index := 0 }
  let srs := b.replicas.map (fun p => SnapReplica.mk p.1 p.2.url p.2.topics)
  { sh with replicas := srs }

/-- `copyFileN` (lines 860-871) over one header segment: `os.Open` fails on
a missing file; `io.CopyN` returns EOF if the file holds fewer than `size`
bytes. -/
def copySegmentOut (fs : FS) (tid : Nat) (ss : SnapSegment) :
    Except String (List Nat) :=
  match fsLookup fs (tid, ss.index) with
  | none => .error "open segment"
  | some c => if c.length < ss.size then .error "copy segment EOF"
              else .ok (c.take ss.size)

/-- The segment-streaming loop of `brokerFSM.Snapshot` (lines 767-774):
each header segment's file contents, concatenated in header order. -/
def snapshotBody (fs : FS) (topics : List SnapTopic) : Except String (List Nat) :=
  topics.foldl (fun (acc : Except String (List Nat)) st =>
    match acc with
    | .error e => .error e
    | .ok bytes =>
      st.segments.foldl (fun (acc2 : Except String (List Nat)) ss =>
        match acc2 with
        | .error e => .error e
        | .ok bytes2 =>
          match copySegmentOut fs st.id ss with
          | .error e => .error e
          | .ok c => .ok (bytes2 ++ c)) (Except.ok bytes))
    (Except.ok [])

/-- `brokerFSM.Snapshot` (lines 740-778): build the header, then stream each
segment file in header order.  The JSON header frame itself is external
(`encoding/json`); the modelled stream is the concatenated segment bodies.
Returns the header's index. -/
def fsmSnapshot (b : Broker) (fs : FS) : Except String (Nat × List Nat) :=
  let hdr := createSnapshotHeader b fs
  match snapshotBody fs hdr.topics with
  | .error e => .error e
  | .ok bytes => .ok (hdr.index, bytes)

/-- The per-segment copy step of `brokerFSM.Restore` (lines 819-837),
traced faithfully: the code calls `os.Open` — open-for-reading, no create —
on `topic/startIndex`, which fails when the file does not exist (it never
exists here: the topic directory was just removed).  Were the file present,
the handle would be read-only, so `io.CopyN` into it fails for any positive
size.  On success the consumed stream suffix is returned. -/
def restoreSegment (fs : FS) (tid : Nat) (ss : SnapSegment)
    (stream : List Nat) : Except String (FS × List Nat) :=
  match fsLookup fs (tid, ss.index) with
  | none => .error "open segment"
  | some _ =>
    if ss.size = 0 then .ok (fs, stream)
    else .error "copy segment"

/-- The per-topic restore loop (lines 808-843): create the topic object,
`os.RemoveAll` its directory, copy each listed segment from the stream, then
open the topic. -/
def restoreTopic (b : Broker) (fs : FS) (st : SnapTopic)
    (stream : List Nat) : Except String (Broker × FS × List Nat) :=
  let fs1 := fsRemoveTopic fs st.id
  match st.segments.foldl (fun (acc : Except String (FS × List Nat)) ss =>
    match acc with
    | .error e => .error e
    | .ok pr => restoreSegment pr.1 st.id ss pr.2) (Except.ok (fs1, stream)) with
  | .error e => .error e
  | .ok pr =>
    let t : Topic := { id := st.id, index := 0,
                       segments := loadSegments pr.1 st.id, replicas := [] }
    .ok ({ b with topics := insertA b.topics st.id t }, pr.1, pr.2)

/-- `brokerFSM.Restore` (lines 781-858), after the external JSON header
frame has been read: close and clear all topics and replicas, restore each
topic's segment files from the stream, then recreate the replicas with
their subscriptions. -/
def fsmRestore (b : Broker) (sh : SnapshotHeader) (stream : List Nat)
    (fs : FS) : Except String (Broker × FS) :=
  let b1 : Broker := { b with topics := [], replicas := [] }
  match sh.topics.foldl
      (fun (acc : Except String (Broker × FS × List Nat)) st =>
    match acc with
    | .error e => .error e
    | .ok pr => restoreTopic pr.1 pr.2.1 st pr.2.2) (Except.ok (b1, fs, stream)) with
  | .error e => .error e
  | .ok pr =>
    let replicas2 := sh.replicas.map
      (fun sr => (sr.id, Replica.mk sr.id sr.url 0 sr.topicIDs))
    .ok ({ pr.1 with replicas := replicas2 }, pr.2.1)

/-! ## Association-list lemmas -/

theorem lookupA_mem {α : Type} (l : List (Nat × α)) (k : Nat) (v : α)
    (h : lookupA l k = some v) : (k, v) ∈ l := by
  induction l with
  | nil => exact absurd h (by simp [lookupA])
  | cons e rest ih =>
    unfold lookupA at h
    by_cases he : e.1 = k
    · rw [if_pos he] at h
      have hv : e.2 = v := by injection h
      have he2 : e = (k, v) := by
        calc e = (e.1, e.2) := rfl
          _ = (k, v) := by rw [he, hv]
      rw [← he2]
      exact List.mem_cons_self _ _
    · rw [if_neg he] at h
      exact List.mem_cons_of_mem e (ih h)

theorem mem_insertA {α : Type} (l : List (Nat × α)) (k : Nat) (v : α)
    (p : Nat × α) (h : p ∈ insertA l k v) : p = (k, v) ∨ p ∈ l := by
  induction l with
  | nil => simp [insertA] at h; simp [h]
  | cons e rest ih =>
    unfold insertA at h
    by_cases he : e.1 = k
    · rw [if_pos he] at h
      rcases List.mem_cons.mp h with h1 | h1
      · exact Or.inl h1
      · exact Or.inr (List.mem_cons_of_mem e h1)
    · rw [if_neg he] at h
      rcases List.mem_cons.mp h with h1 | h1
      · exact Or.inr (by simp [h1])
      · rcases ih h1 with h2 | h2
        · exact Or.inl h2
        · exact Or.inr (List.mem_cons_of_mem e h2)

theorem lookupA_insertA_self {α : Type} (l : List (Nat × α)) (k : Nat) (v : α) :
    lookupA (insertA l k v) k = some v := by
  induction l with
  | nil => simp [insertA, lookupA]
  | cons e rest ih =>
    unfold insertA
    by_cases he : e.1 = k
    · rw [if_pos he]; simp [lookupA]
    · rw [if_neg he]; simp [lookupA, he]; exact ih

theorem insertA_mem_self {α : Type} (l : List (Nat × α)) (k : Nat) (v : α) :
    (k, v) ∈ insertA l k v := by
  induction l with
  | nil => simp [insertA]
  | cons e rest ih =>
    unfold insertA
    by_cases he : e.1 = k
    · rw [if_pos he]; exact List.mem_cons_self _ _
    · rw [if_neg he]; exact List.mem_cons_of_mem e ih

/-! ## `mustCreateTopicIfNotExists` lemmas -/

theorem mct_replicas (b : Broker) (fs : FS) (tid : Nat) :
    (mustCreateTopicIfNotExists b fs tid).1.replicas = b.replicas := by
  unfold mustCreateTopicIfNotExists
  cases lookupA b.topics tid <;> simp

theorem mct_index (b : Broker) (fs : FS) (tid : Nat) :
    (mustCreateTopicIfNotExists b fs tid).1.index = b.index := by
  unfold mustCreateTopicIfNotExists
  cases lookupA b.topics tid <;> simp

theorem mct_lookup (b : Broker) (fs : FS) (tid : Nat) :
    lookupA (mustCreateTopicIfNotExists b fs tid).1.topics tid =
      some (mustCreateTopicIfNotExists b fs tid).2 := by
  unfold mustCreateTopicIfNotExists
  cases h : lookupA b.topics tid with
  | none => simp [lookupA_insertA_self]
  | some t => simp [h]

theorem mct_topics_mem (b : Broker) (fs : FS) (tid : Nat) (p : Nat × Topic)
    (h : p ∈ (mustCreateTopicIfNotExists b fs tid).1.topics) :
    p ∈ b.topics ∨ p.2.index = 0 := by
  unfold mustCreateTopicIfNotExists at h
  cases hl : lookupA b.topics tid with
  | none =>
    rw [hl] at h
    simp at h
    rcases mem_insertA _ _ _ _ h with h1 | h1
    · right; rw [h1]
    · exact Or.inl h1
  | some t =>
    rw [hl] at h
    exact Or.inl h

theorem mct_topic_index (b : Broker) (fs : FS) (tid : Nat) :
    (∃ q ∈ b.topics, (mustCreateTopicIfNotExists b fs tid).2.index = q.2.index) ∨
      (mustCreateTopicIfNotExists b fs tid).2.index = 0 := by
  unfold mustCreateTopicIfNotExists
  cases hl : lookupA b.topics tid with
  | none => right; rfl
  | some t => exact Or.inl ⟨(tid, t), lookupA_mem _ _ _ hl, rfl⟩

/-! ## Claim C7: message codec round-trip -/

/-- C7: for every message `m` with `|Data| ≤ 2^32−1` (and numeric fields in
range of their Go machine types), decoding the byte encoding of `m` — the
22-byte big-endian header `type:u16 | topicID:u64 | index:u64 | dataLen:u32`
followed by the data — yields `m` back with the stream exhausted:
`decode(encode(m)) = m`. -/
theorem decode_encode_roundtrip (m : Message)
    (hwf : msgWF m = true) (hlen : m.data.length ≤ 2 ^ 32 - 1) :
    decodeMessage (encodeMessage m) = some (m, []) := by
  have h := decodeMessage_encodeMessage m [] hwf hlen
  simpa using h

/-- Witness for C7 at a concrete message. -/
theorem decode_encode_roundtrip_witness :
    msgWF ⟨1, 2, 3, [4, 5]⟩ = true ∧
    decodeMessage (encodeMessage ⟨1, 2, 3, [4, 5]⟩) = some (⟨1, 2, 3, [4, 5]⟩, []) :=
  ⟨by decide, decode_encode_roundtrip ⟨1, 2, 3, [4, 5]⟩ (by decide) (by decide)⟩

/-! ## Claim C1: segment rollover dereferences a nil segment -/

/-- A topic whose single (active) segment is over `MaxSegmentSize`. -/
def rolloverTopic : Topic :=
  { id := 1, index := 5,
    segments := [{ index := 0, size := MaxSegmentSize + 1, hasFile := true }],
    replicas := [] }

/-- C1 (code bug): on a topic whose active segment exceeds
`MaxSegmentSize`, appending an in-order message reaches the rollover
branch, which sets `s = nil`, appends the fresh segment, and then reads
`s.file` on the nil `s` — the append panics instead of writing the message
to the new segment. -/
theorem encode_rollover_nil_deref :
    topicEncode rolloverTopic [] ⟨1, 1, 6, []⟩ = EncodeResult.nilDeref := by
  decide

/-! ## Claim C5: Restore fails on a fresh broker -/

/-- A well-formed snapshot header: one topic with one 3-byte segment. -/
def freshSnapHeader : SnapshotHeader :=
  { replicas := [], topics := [{ id := 1, segments := [{ index := 0, size := 3 }] }],
    index := 0 }

/-- C5 (code bug): restoring a well-formed snapshot on a fresh broker does
not succeed — the per-segment copy calls `os.Open` (open-for-reading, no
create) on the just-removed `topic/startIndex` path and errors out, instead
of creating the file and copying `size` bytes into it. -/
theorem restore_fresh_broker_fails :
    fsmRestore ⟨0, false, [], []⟩ freshSnapHeader [7, 8, 9] [] =
      Except.error "open segment" := by
  rfl

/-! ## Claim C2: Truncate deletes files but not the in-memory list -/

/-- Spec scenario 5: topic 3 with segments starting at 0, 100, 200; two
subscribed replicas with high received indexes 150 and 210. -/
def truncTopic : Topic :=
  { id := 3, index := 250,
    segments := [⟨0, 10, false⟩, ⟨100, 10, false⟩, ⟨200, 10, true⟩],
    replicas := [1, 2] }

def truncBroker : Broker :=
  { index := 250, isLeader := true,
    topics := [(3, truncTopic)],
    replicas := [(1, ⟨1, [], 150, [3]⟩), (2, ⟨2, [], 210, [3]⟩)] }

def truncFS : FS := [((3, 0), [1]), ((3, 100), [2]), ((3, 200), [3])]

/-- C2 (code bug): `Truncate` deletes exactly the files the claim names —
segment 0 goes (next start 100 ≤ min index 150), segments 100 and 200
stay — but the topic's in-memory segment list afterwards still contains
*all three* segments: the retained-list (`newSegments`) is computed and
never assigned back. -/
theorem truncate_leaves_segment_list :
    (brokerTruncate truncBroker truncFS).2 = [((3, 100), [2]), ((3, 200), [3])] ∧
    (brokerTruncate truncBroker truncFS).1.topics.map
      (fun p => p.2.segments.map (fun s => s.index)) = [[0, 100, 200]] := by
  decide

/-! ## Claim C3: duplicate CreateReplica overwrites at apply time -/

/-- A broker already holding replica 1 (subscribed to topics 0 and 5, with
high received index 7). -/
def dupBroker : Broker :=
  { index := 0, isLeader := true,
    topics := [(0, { id := 0, index := 0, segments := [⟨0, 0, false⟩],
                     replicas := [] }),
               (5, { id := 5, index := 0, segments := [⟨0, 0, false⟩],
                     replicas := [1] })],
    replicas := [(1, { id := 1, url := [10], index := 7, topics := [0, 5] })] }

/-- C3 counterexample: applying `CreateReplica{id: 1, url}` when replica 1
already exists is *not* a no-op — the replica map changes (the stored
replica is replaced by a fresh one subscribed only to the broadcast
topic). -/
theorem applyCreateReplica_existing_not_noop :
    (mustApplyCreateReplica dupBroker [] 1 [11]).1.replicas ≠
      dupBroker.replicas := by
  decide

/-- C3 as amended: applying `CreateReplica{id, url}` *unconditionally*
stores a fresh replica under `id` — subscribed only to the broadcast topic,
with high received index 0 — replacing any existing replica with that id
(so a fresh id adds the replica as the claim states, but a duplicate id
overwrites rather than no-ops).  The broadcast topic exists afterwards, and
the leader-side pre-publish check does return the replica-exists error when
the id is present. -/
theorem applyCreateReplica_replaces (b : Broker) (fs : FS) (id : Nat)
    (url : List Nat) :
    (mustApplyCreateReplica b fs id url).1.replicas =
      insertA b.replicas id ⟨id, url, 0, [BroadcastTopicID]⟩ ∧
    lookupA (mustApplyCreateReplica b fs id url).1.replicas id =
      some ⟨id, url, 0, [BroadcastTopicID]⟩ ∧
    (lookupA (mustApplyCreateReplica b fs id url).1.topics
      BroadcastTopicID).isSome = true ∧
    (∀ r0, lookupA b.replicas id = some r0 →
      brokerCreateReplica b id url = .error "replica already exists") := by
  refine ⟨?_, ?_, ?_, ?_⟩
  · show insertA (mustCreateTopicIfNotExists b fs BroadcastTopicID).1.replicas
        id _ = _
    rw [mct_replicas]
    rfl
  · exact lookupA_insertA_self _ _ _
  · show (lookupA (mustCreateTopicIfNotExists b fs BroadcastTopicID).1.topics
        BroadcastTopicID).isSome = true
    rw [mct_lookup]
    rfl
  · intro r0 h0
    unfold brokerCreateReplica
    rw [h0]

/-- Witness for C3's amended theorem, at the concrete duplicate-id input. -/
theorem applyCreateReplica_replaces_witness :
    brokerCreateReplica dupBroker 1 [11] = .error "replica already exists" ∧
    lookupA (mustApplyCreateReplica dupBroker [] 1 [11]).1.replicas 1 =
      some ⟨1, [11], 0, [BroadcastTopicID]⟩ :=
  ⟨(applyCreateReplica_replaces dupBroker [] 1 [11]).2.2.2
      ⟨1, [10], 7, [0, 5]⟩ (by decide),
   (applyCreateReplica_replaces dupBroker [] 1 [11]).2.1⟩

/-! ## Claim C10: Heartbeat sets the exact index (no monotonicity) -/

theorem foldMin_stays (tid : Nat) (l : List (Nat × Replica)) (acc : Nat × Bool)
    (h : acc.2 = true) :
    (l.foldl (minIdxStep tid) acc).1 ≤ acc.1 ∧
      (l.foldl (minIdxStep tid) acc).2 = true := by
  induction l generalizing acc with
  | nil => exact ⟨Nat.le_refl _, h⟩
  | cons p rest ih =>
    simp only [List.foldl_cons]
    by_cases hs : tid ∈ p.2.topics
    · by_cases hlt : p.2.index < acc.1
      · have hstep : minIdxStep tid acc p = (p.2.index, true) := by
          simp [minIdxStep, hs, h, hlt]
        rw [hstep]
        have h2 := ih (p.2.index, true) rfl
        exact ⟨Nat.le_trans h2.1 (Nat.le_of_lt hlt), h2.2⟩
      · have hstep : minIdxStep tid acc p = acc := by
          simp [minIdxStep, hs, h, hlt]
        rw [hstep]
        exact ih acc h
    · have hstep : minIdxStep tid acc p = acc := by simp [minIdxStep, hs]
      rw [hstep]
      exact ih acc h

theorem foldMin_le_mem (tid : Nat) (l : List (Nat × Replica))
    (p : Nat × Replica) (hp : p ∈ l) (hs : tid ∈ p.2.topics) :
    ∀ acc, (l.foldl (minIdxStep tid) acc).1 ≤ p.2.index := by
  induction l with
  | nil => exact absurd hp (List.not_mem_nil p)
  | cons q rest ih =>
    intro acc
    simp only [List.foldl_cons]
    rcases List.mem_cons.mp hp with hq | hq
    · subst hq
      have hacc : (minIdxStep tid acc p).1 ≤ p.2.index ∧
          (minIdxStep tid acc p).2 = true := by
        unfold minIdxStep
        rw [if_pos hs]
        by_cases hc : acc.2 = true
        · by_cases hlt : p.2.index < acc.1
          · simp [hc, hlt]
          · simp [hc, hlt]
            omega
        · simp at hc
          simp [hc]
      have h3 := foldMin_stays tid rest (minIdxStep tid acc p) hacc.2
      exact Nat.le_trans h3.1 hacc.1
    · exact ih hq (minIdxStep tid acc q)

/-- C10: on the leader, `Heartbeat(id, index)` for an existing replica sets
that replica's `highReceivedIndex` to exactly the given value — even one
strictly lower than the current value — and consequently the minimum over
subscribed replicas used as the truncation floor drops to at most that
value for every topic the replica subscribes to. -/
theorem heartbeat_sets_exact_index (b : Broker) (id idx : Nat) (r : Replica)
    (hl : b.isLeader = true) (hr : lookupA b.replicas id = some r) :
    ∃ b2, brokerHeartbeat b id idx = .ok b2 ∧
      lookupA b2.replicas id = some { r with index := idx } ∧
      ∀ tid, tid ∈ r.topics → minReplicaTopicIndex b2 tid ≤ idx := by
  refine ⟨{ b with replicas := insertA b.replicas id { r with index := idx } },
    ?_, ?_, ?_⟩
  · simp [brokerHeartbeat, hl, hr]
  · exact lookupA_insertA_self _ _ _
  · intro tid htid
    unfold minReplicaTopicIndex
    exact foldMin_le_mem tid _ (id, { r with index := idx })
      (insertA_mem_self _ _ _) (by simpa using htid) (0, false)

/-- A leader broker holding replica 1 with high received index 150,
subscribed to topic 3. -/
def hbBroker : Broker :=
  { index := 0, isLeader := true, topics := [],
    replicas := [(1, ⟨1, [], 150, [3]⟩)] }

/-- Witness for C10: a stale heartbeat (100 < current 150) is applied
verbatim and drags the truncation floor down to ≤ 100. -/
theorem heartbeat_sets_exact_index_witness :
    ∃ b2, brokerHeartbeat hbBroker 1 100 = .ok b2 ∧
      lookupA b2.replicas 1 = some ⟨1, [], 100, [3]⟩ ∧
      ∀ tid, tid ∈ (⟨1, [], 150, [3]⟩ : Replica).topics →
        minReplicaTopicIndex b2 tid ≤ 100 :=
  heartbeat_sets_exact_index hbBroker 1 100 ⟨1, [], 150, [3]⟩ rfl rfl

/-! ## Claim C9: snapshot index is the maximum segment start index -/

/-- All segment start indexes across all topics of a broker. -/
def allSegmentIndexes (b : Broker) : List Nat :=
  (b.topics.map (fun p => p.2.segments.map (fun s => s.index))).flatten

theorem foldl_if_max (l : List Segment) (a : Nat) :
    l.foldl (fun acc s => if acc < s.index then s.index else acc) a =
      (l.map (fun s => s.index)).foldl max a := by
  induction l generalizing a with
  | nil => rfl
  | cons s rest ih =>
    simp only [List.foldl_cons, List.map_cons]
    rw [ih]
    congr 1
    rcases Nat.lt_or_ge a s.index with h | h
    · simp [h, Nat.max_eq_right (Nat.le_of_lt h)]
    · simp [Nat.not_lt.mpr h, Nat.max_eq_left h]

theorem cshStep_index (fs : FS) (sh : SnapshotHeader) (p : Nat × Topic) :
    (cshStep fs sh p).index =
      (p.2.segments.map (fun s => s.index)).foldl max sh.index := by
  unfold cshStep
  simp [foldl_if_max]

theorem csh_fold_index (fs : FS) (l : List (Nat × Topic)) (sh0 : SnapshotHeader) :
    (l.foldl (cshStep fs) sh0).index =
      ((l.map (fun p => p.2.segments.map (fun s => s.index))).flatten).foldl
        max sh0.index := by
  induction l generalizing sh0 with
  | nil => rfl
  | cons p rest ih =>
    simp only [List.foldl_cons, List.map_cons, List.flatten_cons]
    rw [ih, List.foldl_append, cshStep_index]

theorem createSnapshotHeader_index (b : Broker) (fs : FS) :
    (createSnapshotHeader b fs).index = (allSegmentIndexes b).foldl max 0 := by
  unfold createSnapshotHeader allSegmentIndexes
  simp [csh_fold_index]

/-- C9: the index returned by the FSM `Snapshot` equals the maximum segment
start index across all segments of all topics (`foldl max 0`, hence 0 when
there are no topics or segments) — and it is not the broker's applied
index, as a broker with applied index 42 and no topics snapshots with
index 0. -/
theorem snapshot_index_is_max_segment_start (b : Broker) (fs : FS)
    (idx : Nat) (stream : List Nat)
    (h : fsmSnapshot b fs = .ok (idx, stream)) :
    idx = (allSegmentIndexes b).foldl max 0 ∧
    (∃ s0, fsmSnapshot ⟨42, false, [], []⟩ [] = .ok (0, s0) ∧
      (Broker.mk 42 false [] []).index ≠ 0) := by
  constructor
  · simp only [fsmSnapshot] at h
    cases hb : snapshotBody fs (createSnapshotHeader b fs).topics with
    | error e => rw [hb] at h; exact absurd h (by simp)
    | ok bytes =>
      rw [hb] at h
      rw [Except.ok.injEq, Prod.mk.injEq] at h
      rw [← h.1, createSnapshotHeader_index]
  · exact ⟨[], rfl, by decide⟩

/-- Witness for C9 at a concrete broker (topic 3, segments 0/100/200). -/
theorem snapshot_index_is_max_segment_start_witness :
    fsmSnapshot truncBroker truncFS = .ok (200, [1, 2, 3]) ∧
    (200 : Nat) = (allSegmentIndexes truncBroker).foldl max 0 :=
  ⟨rfl, (snapshot_index_is_max_segment_start truncBroker truncFS
      200 [1, 2, 3] rfl).1⟩

/-! ## Claim C8: append precondition and strictly increasing indices -/

/-- C8: `topic.encode` has precondition `m.Index > highIndex` and aborts
the process (assert panic) when it is violated; on success it sets
`highIndex` to `m.Index`, so any two consecutive successful appends to a
topic carry strictly increasing message indices. -/
theorem encode_requires_ascending (t : Topic) (fs : FS) (m : Message) :
    (m.index ≤ t.index → topicEncode t fs m = .assertFail) ∧
    (∀ t2 fs2, topicEncode t fs m = .ok t2 fs2 →
      t.index < m.index ∧ t2.index = m.index) ∧
    (∀ t2 fs2 m3 t3 fs3, topicEncode t fs m = .ok t2 fs2 →
      topicEncode t2 fs2 m3 = .ok t3 fs3 → m.index < m3.index) := by
  refine ⟨?_, ?_, ?_⟩
  · intro hle
    unfold topicEncode
    rw [if_pos (by omega)]
  · intro t2 fs2 h
    have h2 := topicEncode_ok_index t fs m t2 fs2 h
    exact ⟨h2.1, h2.2.1⟩
  · intro t2 fs2 m3 t3 fs3 h1 h2
    have e1 := topicEncode_ok_index t fs m t2 fs2 h1
    have e2 := topicEncode_ok_index t2 fs2 m3 t3 fs3 h2
    omega

def w8Topic : Topic :=
  { id := 1, index := 0, segments := [⟨0, 0, false⟩], replicas := [] }

def w8TopicHigh : Topic :=
  { id := 1, index := 5, segments := [⟨0, 0, false⟩], replicas := [] }

def w8m1 : Message := ⟨1, 1, 1, []⟩

def w8m2 : Message := ⟨1, 1, 2, []⟩

def w8t2 : Topic :=
  { id := 1, index := 1, segments := [⟨0, 0, true⟩], replicas := [] }

def w8fs2 : FS := [((1, 0), encodeMessage w8m1)]

def w8t3 : Topic :=
  { id := 1, index := 2, segments := [⟨0, 0, true⟩], replicas := [] }

def w8fs3 : FS := [((1, 0), encodeMessage w8m1 ++ encodeMessage w8m2)]

/-- Witness for C8: an out-of-order append (index 5 ≤ highIndex 5) asserts,
and two consecutive successful appends have strictly increasing indices. -/
theorem encode_requires_ascending_witness :
    topicEncode w8TopicHigh [] ⟨1, 1, 5, []⟩ = .assertFail ∧
    w8m1.index < w8m2.index :=
  ⟨(encode_requires_ascending w8TopicHigh [] ⟨1, 1, 5, []⟩).1 (by decide),
   (encode_requires_ascending w8Topic [] w8m1).2.2 w8t2 w8fs2 w8m2 w8t3 w8fs3
     (by decide) (by decide)⟩

/-! ## Claim C4: FSM apply advances the index -/

theorem appliedMessage_index (e : LogEntry) (m : Message)
    (h : appliedMessage e = some m) : m.index = e.index := by
  unfold appliedMessage at h
  by_cases hc : e.isCommand
  · rw [if_pos hc] at h
    cases hu : unmarshalBinary e.data with
    | none => rw [hu] at h; exact absurd h (by simp)
    | some m0 =>
      rw [hu] at h
      simp at h
      rw [← h]
  · rw [if_neg hc] at h
    simp at h
    rw [← h]

theorem mact_create_bounded (b : Broker) (fs : FS) (id : Nat) (url : List Nat)
    (k : Nat) (hk : 0 < k) (hb : ∀ q ∈ b.topics, q.2.index < k) :
    ∀ p ∈ (mustApplyCreateReplica b fs id url).1.topics, p.2.index < k := by
  intro p hp
  have hp2 : p ∈ (mustCreateTopicIfNotExists b fs BroadcastTopicID).1.topics := hp
  rcases mct_topics_mem _ _ _ _ hp2 with h | h
  · exact hb p h
  · omega

theorem mact_delete_bounded (b : Broker) (fs : FS) (id : Nat)
    (k : Nat) (hb : ∀ q ∈ b.topics, q.2.index < k) :
    ∀ p ∈ (mustApplyDeleteReplica b fs id).1.topics, p.2.index < k := by
  intro p hp
  simp only [mustApplyDeleteReplica] at hp
  cases hr : lookupA b.replicas id with
  | none => rw [hr] at hp; exact hb p hp
  | some r =>
    rw [hr] at hp
    simp only at hp
    rcases List.mem_map.mp hp with ⟨q, hq, hpq⟩
    have he : p.2.index = q.2.index := by
      rw [← hpq]
      by_cases hm : q.1 ∈ r.topics <;> simp [hm]
    rw [he]
    exact hb q hq

theorem mact_subscribe_bounded (b : Broker) (fs : FS) (rid tid : Nat) (k : Nat)
    (hk : 0 < k) (hb : ∀ q ∈ b.topics, q.2.index < k) :
    ∀ p ∈ (mustApplySubscribe b fs rid tid).1.topics, p.2.index < k := by
  intro p hp
  unfold mustApplySubscribe at hp
  cases hr : lookupA b.replicas rid with
  | none => rw [hr] at hp; exact hb p hp
  | some r =>
    rw [hr] at hp
    simp only at hp
    by_cases hmem : tid ∈ r.topics
    · rw [if_pos hmem] at hp
      rcases mct_topics_mem _ _ _ _ hp with h | h
      · exact hb p h
      · omega
    · rw [if_neg hmem] at hp
      simp only at hp
      rcases mem_insertA _ _ _ _ hp with h | h
      · rcases mct_topic_index b fs tid with ⟨q, hq, he⟩ | he
        · have h2 : p.2.index = q.2.index := by rw [h]; exact he
          rw [h2]
          exact hb q hq
        · have h2 : p.2.index = 0 := by rw [h]; exact he
          omega
      · rcases mct_topics_mem _ _ _ _ h with h2 | h2
        · exact hb p h2
        · omega

theorem mact_unsubscribe_bounded (b : Broker) (fs : FS) (rid tid : Nat)
    (k : Nat) (hb : ∀ q ∈ b.topics, q.2.index < k) :
    ∀ p ∈ (mustApplyUnsubscribe b fs rid tid).1.topics, p.2.index < k := by
  intro p hp
  simp only [mustApplyUnsubscribe] at hp
  cases ht : lookupA b.topics tid with
  | none => rw [ht] at hp; exact hb p hp
  | some t =>
    rw [ht] at hp
    simp only at hp
    rcases mem_insertA _ _ _ _ hp with h | h
    · have h2 : p.2.index = t.index := by rw [h]
      rw [h2]
      exact hb (tid, t) (lookupA_mem _ _ _ ht)
    · exact hb p h

theorem applyCommand_bounded (b : Broker) (fs : FS) (m : Message)
    (b2 : Broker) (fs2 : FS) (k : Nat) (hk : 0 < k)
    (hb : ∀ q ∈ b.topics, q.2.index < k)
    (h : applyCommand b fs m = some (b2, fs2)) :
    ∀ p ∈ b2.topics, p.2.index < k := by
  unfold applyCommand at h
  by_cases h1 : m.type = CreateReplicaMessageType
  · rw [if_pos h1] at h
    cases hd : decodeCreateReplicaCommand m.data with
    | none => rw [hd] at h; exact absurd h (by simp)
    | some c =>
      rw [hd] at h
      simp only [Option.map_some', Option.some.injEq] at h
      have hb2 : (mustApplyCreateReplica b fs c.1 c.2).1 = b2 := congrArg Prod.fst h
      rw [← hb2]
      exact mact_create_bounded b fs c.1 c.2 k hk hb
  · rw [if_neg h1] at h
    by_cases h2 : m.type = DeleteReplicaMessageType
    · rw [if_pos h2] at h
      cases hd : decodeDeleteReplicaCommand m.data with
      | none => rw [hd] at h; exact absurd h (by simp)
      | some c =>
        rw [hd] at h
        simp only [Option.map_some', Option.some.injEq] at h
        have hb2 : (mustApplyDeleteReplica b fs c).1 = b2 := congrArg Prod.fst h
        rw [← hb2]
        exact mact_delete_bounded b fs c k hb
    · rw [if_neg h2] at h
      by_cases h3 : m.type = SubscribeMessageType
      · rw [if_pos h3] at h
        cases hd : decodeSubscribeCommand m.data with
        | none => rw [hd] at h; exact absurd h (by simp)
        | some c =>
          rw [hd] at h
          simp only [Option.map_some', Option.some.injEq] at h
          have hb2 : (mustApplySubscribe b fs c.1 c.2).1 = b2 := congrArg Prod.fst h
          rw [← hb2]
          exact mact_subscribe_bounded b fs c.1 c.2 k hk hb
      · rw [if_neg h3] at h
        by_cases h4 : m.type = UnsubscribeMessageType
        · rw [if_pos h4] at h
          cases hd : decodeSubscribeCommand m.data with
          | none => rw [hd] at h; exact absurd h (by simp)
          | some c =>
            rw [hd] at h
            simp only [Option.map_some', Option.some.injEq] at h
            have hb2 : (mustApplyUnsubscribe b fs c.1 c.2).1 = b2 :=
              congrArg Prod.fst h
            rw [← hb2]
            exact mact_unsubscribe_bounded b fs c.1 c.2 k hb
        · rw [if_neg h4] at h
          rw [Option.some.injEq] at h
          have hb2 : b = b2 := congrArg Prod.fst h
          rw [← hb2]
          exact hb

theorem appendEntryMessage_spec (b : Broker) (fs : FS) (m : Message)
    (b2 : Broker) (fs2 : FS) (h : appendEntryMessage b fs m = some (b2, fs2)) :
    0 < m.index ∧ b2.index = b.index ∧
    (∃ t2, lookupA b2.topics m.topicID = some t2 ∧ t2.index = m.index) ∧
    (∀ p ∈ b2.topics, p.2.index = m.index ∨
      (∃ q ∈ b.topics, p.2.index = q.2.index) ∨ p.2.index = 0) := by
  unfold appendEntryMessage at h
  cases he : topicEncode (mustCreateTopicIfNotExists b fs m.topicID).2 fs m with
  | assertFail => rw [he] at h; exact absurd h (by simp)
  | nilDeref => rw [he] at h; exact absurd h (by simp)
  | ok t2 fs3 =>
    rw [he] at h
    simp only [Option.some.injEq] at h
    have hidx := topicEncode_ok_index _ _ _ _ _ he
    have hb2 : ({ (mustCreateTopicIfNotExists b fs m.topicID).1 with
        topics := insertA (mustCreateTopicIfNotExists b fs m.topicID).1.topics
          m.topicID t2 } : Broker) = b2 := congrArg Prod.fst h
    refine ⟨by omega, ?_, ?_, ?_⟩
    · rw [← hb2]
      exact mct_index b fs m.topicID
    · refine ⟨t2, ?_, hidx.2.1⟩
      rw [← hb2]
      exact lookupA_insertA_self _ _ _
    · intro p hp
      rw [← hb2] at hp
      rcases mem_insertA _ _ _ _ hp with h1 | h1
      · left
        rw [h1]
        exact hidx.2.1
      · rcases mct_topics_mem _ _ _ _ h1 with h2 | h2
        · exact Or.inr (Or.inl ⟨p, h2, rfl⟩)
        · exact Or.inr (Or.inr h2)

/-- C4: for every committed log entry `e` successfully applied by the FSM
(on a broker whose topics are all strictly below `e.index`, as in-order
log-driven apply guarantees): the broker's applied index becomes exactly
`e.index`; every topic's high index is at most `e.index`; a message with
index `e.index` is appended to the addressed topic, which exists afterwards
(created if absent); and an internal (non-command) entry is applied as a
message with `topicID = 0` and type `Internal`. -/
theorem mustApply_advances_index (b : Broker) (fs : FS) (e : LogEntry)
    (b2 : Broker) (fs2 : FS)
    (hpre : ∀ p ∈ b.topics, p.2.index < e.index)
    (h : mustApply b fs e = some (b2, fs2)) :
    b2.index = e.index ∧
    (∀ p ∈ b2.topics, p.2.index ≤ e.index) ∧
    (∃ m, appliedMessage e = some m ∧ m.index = e.index ∧
      ∃ t, lookupA b2.topics m.topicID = some t ∧ t.index = e.index) ∧
    (e.isCommand = false →
      appliedMessage e =
        some ⟨InternalMessageType, BroadcastTopicID, e.index, []⟩) := by
  unfold mustApply at h
  cases ham : appliedMessage e with
  | none => rw [ham] at h; exact absurd h (by simp)
  | some m =>
    rw [ham] at h
    simp only at h
    cases hd : (if e.isCommand then applyCommand b fs m else some (b, fs)) with
    | none => rw [hd] at h; exact absurd h (by simp)
    | some bfs =>
      rw [hd] at h
      simp only at h
      cases hap : appendEntryMessage bfs.1 bfs.2 m with
      | none => rw [hap] at h; exact absurd h (by simp)
      | some bfs2 =>
        rw [hap] at h
        simp only [Option.some.injEq] at h
        have hb2 : ({ bfs2.1 with index := e.index } : Broker) = b2 :=
          congrArg Prod.fst h
        have hmi : m.index = e.index := appliedMessage_index e m ham
        have hspec := appendEntryMessage_spec bfs.1 bfs.2 m bfs2.1 bfs2.2
          (by rw [← hap])
        have hk : 0 < e.index := by omega
        have hmid : ∀ q ∈ bfs.1.topics, q.2.index < e.index := by
          by_cases hc : e.isCommand
          · rw [if_pos hc] at hd
            exact applyCommand_bounded b fs m bfs.1 bfs.2 e.index hk hpre
              (by rw [hd])
          · rw [if_neg hc, Option.some.injEq] at hd
            intro q hq
            have hqb : q ∈ b.topics := by rw [← hd] at hq; exact hq
            exact hpre q hqb
        refine ⟨?_, ?_, ?_, ?_⟩
        · rw [← hb2]
        · intro p hp
          rw [← hb2] at hp
          have hp2 : p ∈ bfs2.1.topics := hp
          rcases hspec.2.2.2 p hp2 with h1 | h1 | h1
          · omega
          · rcases h1 with ⟨q, hq, he2⟩
            have := hmid q hq
            omega
          · omega
        · refine ⟨m, rfl, hmi, ?_⟩
          rcases hspec.2.2.1 with ⟨t2, hlt, hti⟩
          refine ⟨t2, ?_, by omega⟩
          rw [← hb2]
          exact hlt
        · intro hcmd
          have ham2 := ham
          unfold appliedMessage at ham2
          rw [if_neg (by rw [hcmd]; simp)] at ham2
          exact ham2.symm

/-- The broker state after applying the internal entry `{index: 1}` on a
fresh broker: the broadcast topic is created and holds the no-op message. -/
def applyResultBroker : Broker :=
  { index := 1, isLeader := false,
    topics := [(0, { id := 0, index := 1, segments := [⟨0, 0, true⟩],
                     replicas := [] })],
    replicas := [] }

/-- Witness for C4: applying the internal entry with index 1 on a fresh
broker yields applied index 1, all topics ≤ 1, and the broadcast no-op
message appended to topic 0. -/
theorem mustApply_advances_index_witness :
    applyResultBroker.index = 1 ∧
    (∀ p ∈ applyResultBroker.topics, p.2.index ≤ 1) ∧
    (∃ m, appliedMessage ⟨false, 1, []⟩ = some m ∧ m.index = 1 ∧
      ∃ t, lookupA applyResultBroker.topics m.topicID = some t ∧ t.index = 1) ∧
    ((⟨false, 1, []⟩ : LogEntry).isCommand = false →
      appliedMessage ⟨false, 1, []⟩ =
        some ⟨InternalMessageType, BroadcastTopicID, 1, []⟩) :=
  mustApply_advances_index ⟨0, false, [], []⟩ [] ⟨false, 1, []⟩
    applyResultBroker [((0, 0), encodeMessage ⟨InternalMessageType, 0, 1, []⟩)]
    (by simp) (by decide)

/-! ## Claim C6: catch-up writes exactly the messages after the replica index

The hypotheses describe a well-formed on-disk topic: each segment file is
either missing (no stored messages) or the concatenation of encoded
messages; message indices are strictly increasing within a segment, at or
above the segment's start index, and below the next segment's start
index. -/

/-- A segment file either does not exist (and carries no messages) or holds
exactly the encodings of `ms`. -/
def segContentWF (fs : FS) (tid segIdx : Nat) (ms : List Message) : Bool :=
  match fsLookup fs (tid, segIdx) with
  | none => ms.isEmpty
  | some c => decide (c = ms.flatMap encodeMessage)

def msgsWF (ms : List Message) : Bool :=
  ms.all (fun m => msgWF m && decide (m.data.length ≤ 2 ^ 32 - 1))

/-- Well-formedness of a topic's segments with their per-segment message
lists. -/
def chainWF (fs : FS) (tid : Nat) : List Segment → List (List Message) → Bool
  | [], [] => true
  | [], _ :: _ => false
  | _ :: _, [] => false
  | s :: rest, ms :: mss =>
    segContentWF fs tid s.index ms &&
    msgsWF ms &&
    ms.all (fun m => decide (s.index ≤ m.index)) &&
    decide (List.Pairwise (fun a b => a.index < b.index) ms) &&
    (match rest with
     | [] => true
     | s2 :: _ => decide (s.index ≤ s2.index) &&
         ms.all (fun m => decide (m.index < s2.index))) &&
    chainWF fs tid rest mss

theorem encodeMessage_length (m : Message) :
    (encodeMessage m).length = 22 + m.data.length := by
  simp [encodeMessage, marshalHeader, beBytes_length]
  omega

theorem writeSegmentLoop_encoded (idx : Nat) (msgs : List Message)
    (hwf : msgsWF msgs = true) :
    writeSegmentLoop idx (msgs.flatMap encodeMessage) =
      .ok (msgs.filter (fun m => decide (idx < m.index))) := by
  induction msgs with
  | nil =>
    rw [writeSegmentLoop]
    simp
  | cons m rest ih =>
    have hm : msgWF m = true ∧ m.data.length ≤ 2 ^ 32 - 1 := by
      simp [msgsWF] at hwf
      exact ⟨hwf.1.1, hwf.1.2⟩
    have hrest : msgsWF rest = true := by
      simp [msgsWF] at hwf ⊢
      exact fun a ha => hwf.2 a ha
    have hflat : (m :: rest).flatMap encodeMessage =
        encodeMessage m ++ rest.flatMap encodeMessage := by
      simp
    have hdec : decodeMessage ((m :: rest).flatMap encodeMessage) =
        some (m, rest.flatMap encodeMessage) := by
      rw [hflat]
      exact decodeMessage_encodeMessage m _ hm.1 hm.2
    have hne : ¬ ((m :: rest).flatMap encodeMessage).isEmpty = true := by
      rw [hflat]
      cases hc : encodeMessage m ++ rest.flatMap encodeMessage with
      | nil =>
        exact absurd (congrArg List.length hc) (by simp [encodeMessage_length])
      | cons a as => simp
    rw [writeSegmentLoop, dif_neg hne]
    split
    next heq => rw [hdec] at heq; exact absurd heq (by simp)
    next m2 rest2 heq =>
      rw [hdec] at heq
      rw [Option.some.injEq, Prod.mk.injEq] at heq
      obtain ⟨hm2, hr2⟩ := heq
      subst hm2
      subst hr2
      rw [ih hrest]
      by_cases hle : m.index ≤ idx
      · simp only [if_pos hle]
        rw [List.filter_cons]
        rw [if_neg (by simp; omega)]
      · simp only [if_neg hle]
        rw [List.filter_cons]
        rw [if_pos (by simp; omega)]

theorem writeSegmentTo_wf (idx tid : Nat) (s : Segment) (fs : FS)
    (ms : List Message) (hc : segContentWF fs tid s.index ms = true)
    (hwf : msgsWF ms = true) :
    writeSegmentTo idx tid s fs =
      .ok (ms.filter (fun m => decide (idx < m.index))) := by
  unfold writeSegmentTo
  unfold segContentWF at hc
  cases hf : fsLookup fs (tid, s.index) with
  | none =>
    rw [hf] at hc
    simp at hc
    rw [hc]
    rfl
  | some c =>
    rw [hf] at hc
    simp at hc
    rw [hc]
    exact writeSegmentLoop_encoded idx ms hwf

/-- Splitting the `chainWF` conjunction at a cons cell. -/
theorem chainWF_cons (fs : FS) (tid : Nat) (s : Segment) (rest : List Segment)
    (ms : List Message) (mss : List (List Message))
    (h : chainWF fs tid (s :: rest) (ms :: mss) = true) :
    segContentWF fs tid s.index ms = true ∧
    msgsWF ms = true ∧
    (∀ m ∈ ms, s.index ≤ m.index) ∧
    List.Pairwise (fun a b => a.index < b.index) ms ∧
    (∀ s2, rest.head? = some s2 →
      s.index ≤ s2.index ∧ ∀ m ∈ ms, m.index < s2.index) ∧
    chainWF fs tid rest mss = true := by
  simp only [chainWF, Bool.and_eq_true] at h
  obtain ⟨⟨⟨⟨⟨h1, h2⟩, h3⟩, h4⟩, h5⟩, h6⟩ := h
  refine ⟨h1, h2, ?_, by simpa using h4, ?_, h6⟩
  · intro m hm
    have := List.all_eq_true.mp h3 m hm
    simpa using this
  · intro s2 hs2
    cases rest with
    | nil => exact absurd hs2 (by simp)
    | cons s2b rest2 =>
      have hs2e : s2b = s2 := by simpa using hs2
      subst hs2e
      simp only [Bool.and_eq_true] at h5
      refine ⟨by simpa using h5.1, ?_⟩
      intro m hm
      have := List.all_eq_true.mp h5.2 m hm
      simpa using this

theorem chainWF_nil_right (fs : FS) (tid : Nat) (mss : List (List Message))
    (h : chainWF fs tid [] mss = true) : mss = [] := by
  cases mss with
  | nil => rfl
  | cons ms mss2 => exact absurd h (by simp [chainWF])

theorem chainWF_lower (fs : FS) (tid : Nat) :
    ∀ segs msgss s, chainWF fs tid segs msgss = true → segs.head? = some s →
      ∀ m ∈ msgss.flatten, s.index ≤ m.index := by
  intro segs
  induction segs with
  | nil => intro msgss s h hs; exact absurd hs (by simp)
  | cons s0 rest ih =>
    intro msgss s h hs
    have hs0 : s0 = s := by simpa using hs
    subst hs0
    cases msgss with
    | nil => exact absurd h (by simp [chainWF])
    | cons ms mss =>
      have hc := chainWF_cons fs tid s0 rest ms mss h
      intro m hm
      rw [List.flatten_cons, List.mem_append] at hm
      rcases hm with hm | hm
      · exact hc.2.2.1 m hm
      · cases rest with
        | nil =>
          rw [chainWF_nil_right fs tid mss hc.2.2.2.2.2] at hm
          exact absurd hm (by simp)
        | cons s2 rest2 =>
          have hnext := hc.2.2.2.2.1 s2 (by simp)
          have hlow := ih mss s2 hc.2.2.2.2.2 (by simp) m hm
          omega

theorem chainWF_pairwise (fs : FS) (tid : Nat) :
    ∀ segs msgss, chainWF fs tid segs msgss = true →
      List.Pairwise (fun a b => a.index < b.index) msgss.flatten := by
  intro segs
  induction segs with
  | nil =>
    intro msgss h
    rw [chainWF_nil_right fs tid msgss h]
    simp
  | cons s rest ih =>
    intro msgss h
    cases msgss with
    | nil => exact absurd h (by simp [chainWF])
    | cons ms mss =>
      have hc := chainWF_cons fs tid s rest ms mss h
      rw [List.flatten_cons]
      rw [List.pairwise_append]
      refine ⟨hc.2.2.2.1, ih mss hc.2.2.2.2.2, ?_⟩
      intro a ha b hb
      cases rest with
      | nil =>
        rw [chainWF_nil_right fs tid mss hc.2.2.2.2.2] at hb
        exact absurd hb (by simp)
      | cons s2 rest2 =>
        have hnext := hc.2.2.2.2.1 s2 (by simp)
        have hup := hnext.2 a ha
        have hlow := chainWF_lower fs tid (s2 :: rest2) mss s2
          hc.2.2.2.2.2 (by simp) b hb
        omega

theorem writeToLoop_exact (fs : FS) (tid idx : Nat) :
    ∀ segs msgss, chainWF fs tid segs msgss = true →
      writeToLoop idx tid fs segs =
        .ok ((msgss.flatten).filter (fun m => decide (idx < m.index))) := by
  intro segs
  induction segs with
  | nil =>
    intro msgss h
    rw [chainWF_nil_right fs tid msgss h]
    rfl
  | cons s rest ih =>
    intro msgss h
    cases msgss with
    | nil => exact absurd h (by simp [chainWF])
    | cons ms mss =>
      have hc := chainWF_cons fs tid s rest ms mss h
      have hseg := writeSegmentTo_wf idx tid s fs ms hc.1 hc.2.1
      cases rest with
      | nil =>
        rw [chainWF_nil_right fs tid mss hc.2.2.2.2.2]
        show writeSegmentTo idx tid s fs = _
        rw [hseg]
        simp
      | cons s2 rest2 =>
        have hnext := hc.2.2.2.2.1 s2 (by simp)
        have hih := ih mss hc.2.2.2.2.2
        show (if s2.index ≤ idx then writeToLoop idx tid fs (s2 :: rest2)
          else _) = _
        by_cases hskip : s2.index ≤ idx
        · rw [if_pos hskip, hih]
          have hnil : ms.filter (fun m => decide (idx < m.index)) = [] := by
            rw [List.filter_eq_nil_iff]
            intro m hm
            have := hnext.2 m hm
            simp
            omega
          rw [List.flatten_cons, List.filter_append, hnil, List.nil_append]
        · rw [if_neg hskip]
          rw [hseg, hih]
          rw [List.flatten_cons, List.filter_append]

/-- C6: for a topic whose on-disk segments are well formed (`chainWF`),
catch-up `writeTo(replica)` succeeds and writes to the replica's sink
exactly those stored messages whose index exceeds the replica's high
received index, in strictly ascending index order; a missing segment file
contributes no messages, and segments wholly below the replica index are
skipped without effect on the output. -/
theorem writeTo_exact (t : Topic) (fs : FS) (r : Replica)
    (msgss : List (List Message))
    (h : chainWF fs t.id t.segments msgss = true) :
    topicWriteTo t fs r =
      .ok ((msgss.flatten).filter (fun m => decide (r.index < m.index))) ∧
    List.Pairwise (fun a b => a.index < b.index)
      ((msgss.flatten).filter (fun m => decide (r.index < m.index))) := by
  constructor
  · exact writeToLoop_exact fs t.id r.index t.segments msgss h
  · exact List.Pairwise.sublist (List.filter_sublist _)
      (chainWF_pairwise fs t.id t.segments msgss h)

def w6Topic : Topic :=
  { id := 7, index := 4, segments := [⟨1, 44, false⟩, ⟨3, 44, false⟩],
    replicas := [] }

def w6Msgss : List (List Message) :=
  [[⟨1, 7, 1, []⟩, ⟨1, 7, 2, []⟩], [⟨1, 7, 3, []⟩, ⟨1, 7, 4, []⟩]]

def w6FS : FS :=
  [((7, 1), [⟨1, 7, 1, []⟩, ⟨1, 7, 2, []⟩].flatMap encodeMessage),
   ((7, 3), [⟨1, 7, 3, []⟩, ⟨1, 7, 4, []⟩].flatMap encodeMessage)]

def w6Replica : Replica := ⟨9, [], 1, [7]⟩

/-- Witness for C6: a replica with high received index 1 is caught up with
exactly the messages of index 2, 3, 4. -/
theorem writeTo_exact_witness :
    chainWF w6FS 7 w6Topic.segments w6Msgss = true ∧
    topicWriteTo w6Topic w6FS w6Replica =
      .ok ((w6Msgss.flatten).filter
        (fun m => decide (w6Replica.index < m.index))) :=
  ⟨by decide, (writeTo_exact w6Topic w6FS w6Replica w6Msgss (by decide)).1⟩

end Messaging
